import Mathlib

/-!
# Verification of the Bts repository (binary search tree)

Shallow embedding of src/tree_node.py and src/bst.py.

Python objects become inductive values; the possible Python value None for
a child/parent/root slot becomes Option. Mutation becomes explicit state
passing: an operation that mutates the BinarySearchTree in place is a
function from the tree to (Option Err) × tree, where the first component
models a raised exception (ValueError / KeyError) and the second the state
of the tree object after the call returns or the exception propagates.
Python int keys are Int; a key argument that is not an int (rejected by
isinstance(key, int)) is the badKey constructor of KeyIn. Node values are
a type parameter.
-/

/-- src/tree_node.py, class TreeNode: fields key, value, right, left, parent
(constructor argument order of TreeNode.__init__). -/
inductive TreeNode (α : Type) where
  | mk (key : Int) (value : α) (right : Option (TreeNode α))
       (left : Option (TreeNode α)) (parent : Option (TreeNode α))

namespace TreeNode

def key : TreeNode α → Int
  | .mk k _ _ _ _ => k

def value : TreeNode α → α
  | .mk _ v _ _ _ => v

def right : TreeNode α → Option (TreeNode α)
  | .mk _ _ r _ _ => r

def left : TreeNode α → Option (TreeNode α)
  | .mk _ _ _ l _ => l

def parent : TreeNode α → Option (TreeNode α)
  | .mk _ _ _ _ p => p

/-- TreeNode.depth: 0 if no parent, else parent.depth + 1. -/
def depth : TreeNode α → Nat
  | .mk _ _ _ _ none => 0
  | .mk _ _ _ _ (some p) => depth p + 1

end TreeNode

/-- Exceptions raised by the BST code: ValueError for a non-int key
(the spec calls this InvalidKey), KeyError for a duplicate key on insert
(spec: DuplicateKey) or an absent key on find/remove (spec: KeyNotFound). -/
inductive Err where
  | valueError
  | keyError
deriving DecidableEq

/-- A Python key argument: either an int or some non-int object
(which fails the isinstance(key, int) check). -/
inductive KeyIn where
  | intKey (k : Int)
  | badKey
deriving DecidableEq

/-- src/bst.py, class BinarySearchTree: fields _root, _size,
_num_of_comparisons. -/
structure BST (α : Type) where
  root : Option (TreeNode α)
  size : Int
  num_of_comparisons : Int

/-- BinarySearchTree.__init__(root): _size is 0 if root is None else 1. -/
def BST.init (root : Option (TreeNode α)) : BST α :=
  { root := root
    size := match root with | none => 0 | some _ => 1
    num_of_comparisons := 0 }

/-- BinarySearchTree() with the default argument root=None. -/
def BST.empty : BST α := BST.init none

/-! ## Traversals

Each Python helper takes "a TreeNode or None". Recursion over the nested
Option is phrased on the node itself (the ...Node worker) so that it is
structural; the Option-level wrapper carries the Python name and its
equations (proved below) are exactly the Python recursion. -/

/-- Worker of _inorder: left, node, right. -/
def BST.inorderNode : TreeNode α → List (TreeNode α)
  | .mk k v r l p =>
    (match l with | none => [] | some ln => BST.inorderNode ln)
    ++ [TreeNode.mk k v r l p] ++
    (match r with | none => [] | some rn => BST.inorderNode rn)

/-- BinarySearchTree._inorder(current_node). -/
def BST.inorderAux : Option (TreeNode α) → List (TreeNode α)
  | none => []
  | some n => BST.inorderNode n

/-- Worker of _preorder: node, left, right. -/
def BST.preorderNode : TreeNode α → List (TreeNode α)
  | .mk k v r l p =>
    [TreeNode.mk k v r l p]
    ++ (match l with | none => [] | some ln => BST.preorderNode ln)
    ++ (match r with | none => [] | some rn => BST.preorderNode rn)

/-- BinarySearchTree._preorder(current_node). -/
def BST.preorderAux : Option (TreeNode α) → List (TreeNode α)
  | none => []
  | some n => BST.preorderNode n

/-- Worker of _postorder: left, right, node. -/
def BST.postorderNode : TreeNode α → List (TreeNode α)
  | .mk k v r l p =>
    (match l with | none => [] | some ln => BST.postorderNode ln)
    ++ (match r with | none => [] | some rn => BST.postorderNode rn)
    ++ [TreeNode.mk k v r l p]

/-- BinarySearchTree._postorder(current_node). -/
def BST.postorderAux : Option (TreeNode α) → List (TreeNode α)
  | none => []
  | some n => BST.postorderNode n

/-- BinarySearchTree.inorder(node=None): node = node or self._root (a
TreeNode is always truthy, so a passed node wins, else the root); if the
resulting node is None the generator yields nothing. -/
def BST.inorder (t : BST α) (node : Option (TreeNode α)) : List (TreeNode α) :=
  match node.orElse (fun _ => t.root) with
  | none => []
  | some n => BST.inorderAux (some n)

/-- BinarySearchTree.preorder(node=None). -/
def BST.preorder (t : BST α) (node : Option (TreeNode α)) : List (TreeNode α) :=
  match node.orElse (fun _ => t.root) with
  | none => []
  | some n => BST.preorderAux (some n)

/-- BinarySearchTree.postorder(node=None). -/
def BST.postorder (t : BST α) (node : Option (TreeNode α)) : List (TreeNode α) :=
  match node.orElse (fun _ => t.root) with
  | none => []
  | some n => BST.postorderAux (some n)

/-- BinarySearchTree.__iter__: yield from self._preorder(self._root). -/
def BST.iter (t : BST α) : List (TreeNode α) :=
  BST.preorderAux t.root

/-- The loop successor = node; while successor.left: successor =
successor.left (used by remove and, from the root, by return_min_key). -/
def leftmost : TreeNode α → TreeNode α
  | .mk k v r none p => .mk k v r none p
  | .mk _ _ _ (some l) _ => leftmost l

/-- BinarySearchTree.return_min_key: node = self._root; walk left while
node and node.left; None exactly when the tree is empty. -/
def BST.return_min_key (t : BST α) : Option (TreeNode α) :=
  match t.root with
  | none => none
  | some n => some (leftmost n)

/-- Worker of _find_recursive. -/
def BST.findNode (key : Int) : TreeNode α → Option (TreeNode α)
  | .mk k v r l p =>
    if key = k then some (.mk k v r l p)
    else if key < k then
      match l with | none => none | some ln => BST.findNode key ln
    else
      match r with | none => none | some rn => BST.findNode key rn

/-- BinarySearchTree._find_recursive(node, key): None at a missing node,
the node itself on key equality, else recurse left or right. -/
def BST.find_recursive (key : Int) : Option (TreeNode α) → Option (TreeNode α)
  | none => none
  | some n => BST.findNode key n

/-- BinarySearchTree.find(key): ValueError for a non-int key, KeyError if
_find_recursive returns None, else the node. find mutates nothing. -/
def BST.find (t : BST α) (key : KeyIn) : Except Err (TreeNode α) :=
  match key with
  | .badKey => .error .valueError
  | .intKey k =>
    match BST.find_recursive k t.root with
    | none => .error .keyError
    | some n => .ok n

/-- BinarySearchTree.__getitem__(key): return self.find(key).value. -/
def BST.getitem (t : BST α) (key : KeyIn) : Except Err α :=
  match t.find key with
  | .error e => .error e
  | .ok n => .ok n.value

/-- BinarySearchTree._insert_recursive(node, key, value). Returns none when
the Python code raises KeyError (key already at this node or below on the
search path); the KeyError is raised before any node is created or linked.
On success returns the updated subtree; each success corresponds to exactly
one new TreeNode and one execution of self._size += 1, accounted for at the
top level in BST.insert. A new node is TreeNode(key, value): right, left
and parent all default to None. -/
def BST.insert_recursive (node : TreeNode α) (key : Int) (value : α) :
    Option (TreeNode α) :=
  match node with
  | .mk k v r l p =>
    if key = k then none
    else if key < k then
      match l with
      | none => some (.mk k v r (some (.mk key value none none none)) p)
      | some ln =>
        (BST.insert_recursive ln key value).map
          (fun l2 => .mk k v r (some l2) p)
    else
      match r with
      | none => some (.mk k v (some (.mk key value none none none)) l p)
      | some rn =>
        (BST.insert_recursive rn key value).map
          (fun r2 => .mk k v (some r2) l p)

/-- BinarySearchTree.insert(key, value): ValueError for a non-int key; on
an empty tree the new node becomes the root and _size += 1; otherwise
_insert_recursive runs (its KeyError is caught and re-raised unchanged). -/
def BST.insert (t : BST α) (key : KeyIn) (value : α) : Option Err × BST α :=
  match key with
  | .badKey => (some .valueError, t)
  | .intKey k =>
    match t.root with
    | none =>
      (none, { t with root := some (.mk k value none none none),
                      size := t.size + 1 })
    | some rn =>
      match BST.insert_recursive rn k value with
      | none => (some .keyError, t)
      | some n2 =>
        (none, { t with root := some n2, size := t.size + 1 })

/-- Worker of remove_recursive. The nested function remove_recursive(node)
of BinarySearchTree.remove is a closure over the single argument key of
remove: in the two-children branch, after copying the successor key and
value into the node, the code calls remove_recursive(node.right), which
still searches for the ORIGINAL key, not for the successor key. The Python
truthiness tests node.left and node.right are None-tests (a TreeNode is
always truthy). -/
def BST.removeNode (key : Int) : TreeNode α → Option (TreeNode α) × Bool
  | .mk k v r l p =>
    if key < k then
      let res := match l with
        | none => ((none : Option (TreeNode α)), false)
        | some ln => BST.removeNode key ln
      (some (.mk k v r res.1 p), res.2)
    else if key > k then
      let res := match r with
        | none => ((none : Option (TreeNode α)), false)
        | some rn => BST.removeNode key rn
      (some (.mk k v res.1 l p), res.2)
    else
      match l, r with
      | some l0, some rn =>
        let s := leftmost rn
        let res := BST.removeNode key rn
        (some (.mk s.key s.value res.1 (some l0) p), true)
      | some ln, none => (some ln, true)
      | none, _ => (r, true)

/-- The nested function remove_recursive(node) of BinarySearchTree.remove,
on a TreeNode-or-None argument. -/
def BST.remove_recursive (key : Int) :
    Option (TreeNode α) → Option (TreeNode α) × Bool
  | none => (none, false)
  | some n => BST.removeNode key n

/-- BinarySearchTree.remove(key): ValueError for a non-int key (checked
before any mutation); then self._root is reassigned to the first component
of remove_recursive(self._root) BEFORE the deleted flag is tested, KeyError
is raised when nothing was deleted, and _size -= 1 runs only on success. -/
def BST.remove (t : BST α) (key : KeyIn) : Option Err × BST α :=
  match key with
  | .badKey => (some .valueError, t)
  | .intKey k =>
    let res := BST.remove_recursive k t.root
    if res.2 then (none, { t with root := res.1, size := t.size - 1 })
    else (some .keyError, { t with root := res.1 })

/-- The float bounds float(-inf) / float(+inf) used by is_valid_recursive,
together with the int keys they are compared against. -/
inductive Bound where
  | ninf
  | val (k : Int)
  | pinf
deriving DecidableEq

/-- The strict order on bounds: -inf < any int < +inf. -/
def Bound.blt : Bound → Bound → Bool
  | .ninf, .val _ => true
  | .ninf, .pinf => true
  | .val a, .val b => a < b
  | .val _, .pinf => true
  | _, _ => false

/-- Worker of is_valid_recursive. -/
def BST.validNode : TreeNode α → Bound → Bound → Bool
  | .mk k _ r l _, lower, upper =>
    if !(lower.blt (.val k) && Bound.blt (.val k) upper) then false
    else
      (match l with | none => true | some ln => BST.validNode ln lower (.val k)) &&
      (match r with | none => true | some rn => BST.validNode rn (.val k) upper)

/-- The nested function is_valid_recursive(node, lower, upper) of the
is_valid property: not lower < node.key < upper fails, else recurse with
tightened bounds. -/
def BST.is_valid_recursive :
    Option (TreeNode α) → Bound → Bound → Bool
  | none, _, _ => true
  | some n, lower, upper => BST.validNode n lower upper

/-- The is_valid property of BinarySearchTree: its body defines
is_valid_recursive but contains no return statement, so the property call
falls off the end of the function and returns None for every tree. None is
modelled as Option.none; a fixed implementation would return
some (is_valid_recursive root ninf pinf). -/
def BST.is_valid (_ : BST α) : Option Bool := none

/-! ## Derived notions used by the specification claims -/

/-- The keys of a subtree, in inorder sequence. A key is present in the
tree exactly when it is a member of this list. -/
def BST.keyList (t : Option (TreeNode α)) : List Int :=
  (BST.inorderAux t).map TreeNode.key

/-- One public mutating call: insert(k, v) or remove(k), with an int key. -/
inductive Op (α : Type) where
  | ins (k : Int) (v : α)
  | del (k : Int)

/-- Run one operation, returning the raised exception (if any) and the
state of the tree afterwards. -/
def BST.applyOp (t : BST α) : Op α → Option Err × BST α
  | .ins k v => t.insert (.intKey k) v
  | .del k => t.remove (.intKey k)

/-- Run a sequence of operations, keeping the tree state of each step. -/
def BST.runOps (t : BST α) : List (Op α) → BST α
  | [] => t
  | op :: ops => ((t.applyOp op).2).runOps ops

/-- True when every operation of the sequence succeeds (raises nothing). -/
def BST.runOk (t : BST α) : List (Op α) → Bool
  | [] => true
  | op :: ops =>
    ((t.applyOp op).1 == none) && ((t.applyOp op).2).runOk ops

/-- The trees reachable from the empty tree by successful insert and
remove calls (the operation raised no exception). -/
inductive Reachable : BST α → Prop where
  | empty : Reachable BST.empty
  | insert (t : BST α) (k : Int) (v : α) (t2 : BST α) :
      Reachable t → t.insert (.intKey k) v = (none, t2) → Reachable t2
  | remove (t : BST α) (k : Int) (t2 : BST α) :
      Reachable t → t.remove (.intKey k) = (none, t2) → Reachable t2

/-- Weak search-tree property: at every node, the keys of the left subtree
are strictly below the node key and the keys of the right subtree are at
least the node key. This (not the strict BST property, which the buggy
two-children removal destroys) is the invariant that every reachable tree
satisfies; it is what makes every present key findable on its search
path. -/
def weakNode : TreeNode α → Bool
  | .mk k _ r l _ =>
    (match l with
     | none => true
     | some ln =>
       (BST.keyList (some ln)).all (fun q => decide (q < k)) && weakNode ln) &&
    (match r with
     | none => true
     | some rn =>
       (BST.keyList (some rn)).all (fun q => decide (k ≤ q)) && weakNode rn)

/-- weakNode lifted to a TreeNode-or-None. -/
def weakTree : Option (TreeNode α) → Bool
  | none => true
  | some n => weakNode n

/-- Strict BST property: left subtree keys strictly below the node key,
right subtree keys strictly above. Insertions preserve it; it forces the
inorder key sequence to be strictly ascending. -/
def strictNode : TreeNode α → Bool
  | .mk k _ r l _ =>
    (match l with
     | none => true
     | some ln =>
       (BST.keyList (some ln)).all (fun q => decide (q < k)) && strictNode ln) &&
    (match r with
     | none => true
     | some rn =>
       (BST.keyList (some rn)).all (fun q => decide (k < q)) && strictNode rn)

/-- strictNode lifted to a TreeNode-or-None. -/
def strictTree : Option (TreeNode α) → Bool
  | none => true
  | some n => strictNode n

/-- Every node of the subtree has parent = None (the BST code never
assigns any parent field, and TreeNode(key, value) defaults it to None). -/
def parentsNone : TreeNode α → Bool
  | .mk _ _ r l p =>
    p.isNone &&
    (match l with | none => true | some ln => parentsNone ln) &&
    (match r with | none => true | some rn => parentsNone rn)

/-- parentsNone lifted to a TreeNode-or-None. -/
def parentsTree : Option (TreeNode α) → Bool
  | none => true
  | some n => parentsNone n

/-- Fold the public insert over a list of key/value pairs, starting from
the empty tree (the state after each call, whether or not it raised). -/
def BST.insertAll (ps : List (Int × α)) : BST α :=
  ps.foldl (fun t p => (t.insert (.intKey p.1) p.2).2) BST.empty

/-- The insertion sequence of the round-trip scenario of the spec:
keys 5, 3, 8, 1, 4, 7, 9 (values irrelevant; 0 here). -/
def scenarioOps : List (Op Int) :=
  [.ins 5 0, .ins 3 0, .ins 8 0, .ins 1 0, .ins 4 0, .ins 7 0, .ins 9 0]

/-- The tree after inserting 5, 3, 8, 1, 4, 7, 9 into an empty tree. -/
def scenarioTree : BST Int := BST.runOps BST.empty scenarioOps

/-- The state after then calling remove(5): the root has two children, so
the two-children branch of remove runs. -/
def scenarioAfterRemove : BST Int := (scenarioTree.remove (.intKey 5)).2

/-- A one-node tree: insert(2, 5) into an empty tree (used to instantiate
universally quantified statements at a concrete input). -/
def oneNode : BST Int := (BST.empty.insert (.intKey 2) 5).2

/-! ## Equation lemmas

The Option-level wrappers restated as the recursions of the Python
helpers. -/

@[simp] theorem inorderAux_none :
    BST.inorderAux (none : Option (TreeNode α)) = [] := rfl

@[simp] theorem inorderAux_some (k : Int) (v : α) (r l p : Option (TreeNode α)) :
    BST.inorderAux (some (.mk k v r l p)) =
      BST.inorderAux l ++ [TreeNode.mk k v r l p] ++ BST.inorderAux r := by
  cases l <;> cases r <;> rfl

@[simp] theorem preorderAux_none :
    BST.preorderAux (none : Option (TreeNode α)) = [] := rfl

@[simp] theorem preorderAux_some (k : Int) (v : α) (r l p : Option (TreeNode α)) :
    BST.preorderAux (some (.mk k v r l p)) =
      [TreeNode.mk k v r l p] ++ BST.preorderAux l ++ BST.preorderAux r := by
  cases l <;> cases r <;> rfl

@[simp] theorem postorderAux_none :
    BST.postorderAux (none : Option (TreeNode α)) = [] := rfl

@[simp] theorem postorderAux_some (k : Int) (v : α) (r l p : Option (TreeNode α)) :
    BST.postorderAux (some (.mk k v r l p)) =
      BST.postorderAux l ++ BST.postorderAux r ++ [TreeNode.mk k v r l p] := by
  cases l <;> cases r <;> rfl

@[simp] theorem keyList_none : BST.keyList (none : Option (TreeNode α)) = [] := rfl

@[simp] theorem keyList_some (k : Int) (v : α) (r l p : Option (TreeNode α)) :
    BST.keyList (some (.mk k v r l p)) =
      BST.keyList l ++ k :: BST.keyList r := by
  simp [BST.keyList, TreeNode.key]

@[simp] theorem find_recursive_none (key : Int) :
    BST.find_recursive key (none : Option (TreeNode α)) = none := rfl

theorem find_recursive_some (key k : Int) (v : α) (r l p : Option (TreeNode α)) :
    BST.find_recursive key (some (.mk k v r l p)) =
      if key = k then some (.mk k v r l p)
      else if key < k then BST.find_recursive key l
      else BST.find_recursive key r := by
  cases l <;> cases r <;> rfl

@[simp] theorem remove_recursive_none (key : Int) :
    BST.remove_recursive key (none : Option (TreeNode α)) = (none, false) := rfl

theorem remove_recursive_lt (key k : Int) (v : α) (r l p : Option (TreeNode α))
    (h : key < k) :
    BST.remove_recursive key (some (.mk k v r l p)) =
      (some (.mk k v r (BST.remove_recursive key l).1 p),
       (BST.remove_recursive key l).2) := by
  cases l <;> cases r <;>
    simp [BST.remove_recursive, BST.removeNode, h]

theorem remove_recursive_gt (key k : Int) (v : α) (r l p : Option (TreeNode α))
    (h : k < key) :
    BST.remove_recursive key (some (.mk k v r l p)) =
      (some (.mk k v (BST.remove_recursive key r).1 l p),
       (BST.remove_recursive key r).2) := by
  have h2 : ¬ key < k := by omega
  cases l <;> cases r <;>
    simp [BST.remove_recursive, BST.removeNode, h, h2]

theorem remove_recursive_self_two (k : Int) (v : α) (rn l0 : TreeNode α)
    (p : Option (TreeNode α)) :
    BST.remove_recursive k (some (.mk k v (some rn) (some l0) p)) =
      (some (.mk (leftmost rn).key (leftmost rn).value
        (BST.remove_recursive k (some rn)).1 (some l0) p), true) := by
  simp [BST.remove_recursive, BST.removeNode]

theorem remove_recursive_self_left (k : Int) (v : α) (ln : TreeNode α)
    (p : Option (TreeNode α)) :
    BST.remove_recursive k (some (.mk k v none (some ln) p)) = (some ln, true) := by
  simp [BST.remove_recursive, BST.removeNode]

theorem remove_recursive_self_noleft (k : Int) (v : α)
    (r p : Option (TreeNode α)) :
    BST.remove_recursive k (some (.mk k v r none p)) = (r, true) := by
  cases r <;> simp [BST.remove_recursive, BST.removeNode]

@[simp] theorem weakTree_none : weakTree (none : Option (TreeNode α)) = true := rfl

theorem weakTree_some (k : Int) (v : α) (r l p : Option (TreeNode α)) :
    weakTree (some (.mk k v r l p)) =
      (((BST.keyList l).all (fun q => decide (q < k)) && weakTree l) &&
       ((BST.keyList r).all (fun q => decide (k ≤ q)) && weakTree r)) := by
  cases l <;> cases r <;> rfl

@[simp] theorem strictTree_none : strictTree (none : Option (TreeNode α)) = true := rfl

theorem strictTree_some (k : Int) (v : α) (r l p : Option (TreeNode α)) :
    strictTree (some (.mk k v r l p)) =
      (((BST.keyList l).all (fun q => decide (q < k)) && strictTree l) &&
       ((BST.keyList r).all (fun q => decide (k < q)) && strictTree r)) := by
  cases l <;> cases r <;> rfl

@[simp] theorem parentsTree_none : parentsTree (none : Option (TreeNode α)) = true := rfl

theorem parentsTree_some (k : Int) (v : α) (r l p : Option (TreeNode α)) :
    parentsTree (some (.mk k v r l p)) =
      (p.isNone && parentsTree l && parentsTree r) := by
  cases l <;> cases r <;> rfl

/-! ## Structural lemmas -/

/-- A node returned by _find_recursive carries the searched key and is a
node of the tree. -/
theorem find_recursive_spec : ∀ (n : TreeNode α) (key : Int) (m : TreeNode α),
    BST.find_recursive key (some n) = some m →
    m.key = key ∧ m ∈ BST.inorderAux (some n)
  | .mk k v r l p, key, m => by
    intro h
    rw [find_recursive_some] at h
    split_ifs at h with h1 h2
    · cases h
      subst h1
      simp [TreeNode.key]
    · cases l with
      | none => simp at h
      | some ln =>
        have ih := find_recursive_spec ln key m h
        exact ⟨ih.1, by simp [ih.2]⟩
    · cases r with
      | none => simp at h
      | some rn =>
        have ih := find_recursive_spec rn key m h
        exact ⟨ih.1, by simp [ih.2]⟩

/-- A successful _find_recursive means the key is present. -/
theorem find_recursive_present (t : Option (TreeNode α)) (key : Int)
    (m : TreeNode α) (h : BST.find_recursive key t = some m) :
    key ∈ BST.keyList t := by
  cases t with
  | none => simp at h
  | some n =>
    have hs := find_recursive_spec n key m h
    have : m.key ∈ (BST.inorderAux (some n)).map TreeNode.key :=
      List.mem_map_of_mem TreeNode.key hs.2
    rw [hs.1] at this
    exact this

/-- When remove_recursive removes nothing, it returns the subtree it was
given, unchanged. -/
theorem removeNode_not_removed : ∀ (n : TreeNode α) (key : Int),
    (BST.remove_recursive key (some n)).2 = false →
    (BST.remove_recursive key (some n)).1 = some n
  | .mk k v r l p, key => by
    intro h
    rcases lt_trichotomy key k with h1 | h1 | h1
    · rw [remove_recursive_lt key k v r l p h1] at h ⊢
      cases l with
      | none => simp
      | some ln =>
        have := removeNode_not_removed ln key h
        simp [this]
    · subst h1
      cases l with
      | none => rw [remove_recursive_self_noleft] at h; simp at h
      | some ln =>
        cases r with
        | none => rw [remove_recursive_self_left] at h; simp at h
        | some rn => rw [remove_recursive_self_two] at h; simp at h
    · rw [remove_recursive_gt key k v r l p h1] at h ⊢
      cases r with
      | none => simp
      | some rn =>
        have := removeNode_not_removed rn key h
        simp [this]

/-- Option-level version of removeNode_not_removed. -/
theorem remove_recursive_not_removed (t : Option (TreeNode α)) (key : Int)
    (h : (BST.remove_recursive key t).2 = false) :
    (BST.remove_recursive key t).1 = t := by
  cases t with
  | none => rfl
  | some n => exact removeNode_not_removed n key h

/-- remove_recursive reports a removal only when the key is present. -/
theorem removeNode_removed_present : ∀ (n : TreeNode α) (key : Int),
    (BST.remove_recursive key (some n)).2 = true → key ∈ BST.keyList (some n)
  | .mk k v r l p, key => by
    intro h
    rcases lt_trichotomy key k with h1 | h1 | h1
    · rw [remove_recursive_lt key k v r l p h1] at h
      cases l with
      | none => simp at h
      | some ln =>
        have := removeNode_removed_present ln key h
        simp [this]
    · subst h1
      simp
    · rw [remove_recursive_gt key k v r l p h1] at h
      cases r with
      | none => simp at h
      | some rn =>
        have := removeNode_removed_present rn key h
        simp [this]

/-- The leftmost node of a subtree is a node of that subtree. -/
theorem leftmost_mem : ∀ (n : TreeNode α), leftmost n ∈ BST.inorderAux (some n)
  | .mk k v r none p => by simp [leftmost]
  | .mk k v r (some ln) p => by
    have := leftmost_mem ln
    simp [leftmost, this]

/-- The leftmost node has no left child. -/
theorem leftmost_left_none : ∀ (n : TreeNode α), (leftmost n).left = none
  | .mk k v r none p => by simp [leftmost, TreeNode.left]
  | .mk k v r (some ln) p => leftmost_left_none ln

/-- Under the weak search-tree property, the leftmost node of a subtree
holds a key no larger than any key of that subtree. -/
theorem leftmost_min : ∀ (n : TreeNode α), weakTree (some n) = true →
    ∀ q ∈ BST.keyList (some n), (leftmost n).key ≤ q
  | .mk k v r none p => by
    intro hw q hq
    rw [weakTree_some] at hw
    simp only [Bool.and_eq_true, List.all_eq_true, decide_eq_true_eq] at hw
    simp only [keyList_some, keyList_none, List.nil_append, List.mem_cons] at hq
    rcases hq with rfl | hq
    · simp [leftmost, TreeNode.key]
    · have := hw.2.1 q hq
      simp only [leftmost, TreeNode.key]
      omega
  | .mk k v r (some ln) p => by
    intro hw q hq
    rw [weakTree_some] at hw
    simp only [Bool.and_eq_true, List.all_eq_true, decide_eq_true_eq] at hw
    have ihm := leftmost_min ln hw.1.2 
    have hlm : (leftmost ln).key ∈ BST.keyList (some ln) := by
      have := leftmost_mem ln
      exact List.mem_map_of_mem TreeNode.key this
    have hlk : (leftmost ln).key < k := hw.1.1 _ hlm
    simp only [keyList_some, List.mem_append, List.mem_cons] at hq
    simp only [leftmost]
    rcases hq with hq | rfl | hq
    · exact ihm q hq
    · omega
    · have := hw.2.1 q hq
      omega

/-- The key of the leftmost node is a key of the subtree. -/
theorem leftmost_key_mem (n : TreeNode α) :
    (leftmost n).key ∈ BST.keyList (some n) :=
  List.mem_map_of_mem TreeNode.key (leftmost_mem n)

/-- remove_recursive never invents keys: every key of the result was a key
of the input subtree. -/
theorem remove_keyList_sub : ∀ (n : TreeNode α) (key q : Int),
    q ∈ BST.keyList (BST.remove_recursive key (some n)).1 →
    q ∈ BST.keyList (some n)
  | .mk k v r l p, key, q => by
    intro h
    rcases lt_trichotomy key k with h1 | h1 | h1
    · rw [remove_recursive_lt key k v r l p h1, keyList_some] at h
      rw [keyList_some]
      rcases List.mem_append.1 h with h | h
      · cases l with
        | none => simp at h
        | some ln =>
          exact List.mem_append_left _ (remove_keyList_sub ln key q h)
      · exact List.mem_append_right _ h
    · subst h1
      cases l with
      | none =>
        rw [remove_recursive_self_noleft] at h
        simp [h]
      | some ln =>
        cases r with
        | none =>
          rw [remove_recursive_self_left] at h
          simp [h]
        | some rn =>
          rw [remove_recursive_self_two, keyList_some] at h
          rw [keyList_some]
          rcases List.mem_append.1 h with h | h
          · exact List.mem_append_left _ h
          · rcases List.mem_cons.1 h with h | h
            · subst h
              exact List.mem_append_right _
                (List.mem_cons_of_mem _ (leftmost_key_mem rn))
            · exact List.mem_append_right _
                (List.mem_cons_of_mem _ (remove_keyList_sub rn key q h))
    · rw [remove_recursive_gt key k v r l p h1, keyList_some] at h
      rw [keyList_some]
      rcases List.mem_append.1 h with h | h
      · exact List.mem_append_left _ h
      · rcases List.mem_cons.1 h with h | h
        · simp [h]
        · cases r with
          | none => simp at h
          | some rn =>
            exact List.mem_append_right _
              (List.mem_cons_of_mem _ (remove_keyList_sub rn key q h))

/-- remove_recursive preserves the weak search-tree property. -/
theorem remove_weak : ∀ (n : TreeNode α) (key : Int),
    weakTree (some n) = true →
    weakTree (BST.remove_recursive key (some n)).1 = true
  | .mk k v r l p, key => by
    intro hw
    rw [weakTree_some] at hw
    simp only [Bool.and_eq_true, List.all_eq_true, decide_eq_true_eq] at hw
    obtain ⟨⟨hlk, hlw⟩, hrk, hrw⟩ := hw
    rcases lt_trichotomy key k with h1 | h1 | h1
    · rw [remove_recursive_lt key k v r l p h1, weakTree_some]
      simp only [Bool.and_eq_true, List.all_eq_true, decide_eq_true_eq]
      refine ⟨⟨?_, ?_⟩, hrk, hrw⟩
      · intro q hq
        cases l with
        | none => simp at hq
        | some ln => exact hlk q (remove_keyList_sub ln key q hq)
      · cases l with
        | none => simp
        | some ln => exact remove_weak ln key hlw
    · subst h1
      cases l with
      | none => rw [remove_recursive_self_noleft]; exact hrw
      | some ln =>
        cases r with
        | none => rw [remove_recursive_self_left]; exact hlw
        | some rn =>
          rw [remove_recursive_self_two, weakTree_some]
          simp only [Bool.and_eq_true, List.all_eq_true, decide_eq_true_eq]
          have hsmem : (leftmost rn).key ∈ BST.keyList (some rn) :=
            leftmost_key_mem rn
          have hks : key ≤ (leftmost rn).key := hrk _ hsmem
          refine ⟨⟨?_, hlw⟩, ?_, ?_⟩
          · intro q hq
            have := hlk q hq
            omega
          · intro q hq
            exact leftmost_min rn hrw q (remove_keyList_sub rn key q hq)
          · exact remove_weak rn key hrw
    · rw [remove_recursive_gt key k v r l p h1, weakTree_some]
      simp only [Bool.and_eq_true, List.all_eq_true, decide_eq_true_eq]
      refine ⟨⟨hlk, hlw⟩, ?_, ?_⟩
      · intro q hq
        cases r with
        | none => simp at hq
        | some rn => exact hrk q (remove_keyList_sub rn key q hq)
      · cases r with
        | none => simp
        | some rn => exact remove_weak rn key hrw

/-- Option-level version of remove_weak. -/
theorem remove_weak_opt (t : Option (TreeNode α)) (key : Int)
    (hw : weakTree t = true) :
    weakTree (BST.remove_recursive key t).1 = true := by
  cases t with
  | none => rfl
  | some n => exact remove_weak n key hw


/-! ## Insertion lemmas -/

theorem insert_recursive_hit (key k : Int) (v v0 : α)
    (r l p : Option (TreeNode α)) (h : key = k) :
    BST.insert_recursive (.mk k v r l p) key v0 = none := by
  unfold BST.insert_recursive
  simp [h]

theorem insert_recursive_lt_none (key k : Int) (v v0 : α)
    (r p : Option (TreeNode α)) (h : key < k) :
    BST.insert_recursive (.mk k v r none p) key v0 =
      some (.mk k v r (some (.mk key v0 none none none)) p) := by
  unfold BST.insert_recursive
  rw [if_neg (by omega), if_pos h]

theorem insert_recursive_lt_some (key k : Int) (v v0 : α) (ln : TreeNode α)
    (r p : Option (TreeNode α)) (h : key < k) :
    BST.insert_recursive (.mk k v r (some ln) p) key v0 =
      (BST.insert_recursive ln key v0).map
        (fun l2 => .mk k v r (some l2) p) := by
  conv_lhs => unfold BST.insert_recursive
  rw [if_neg (by omega), if_pos h]

theorem insert_recursive_gt_none (key k : Int) (v v0 : α)
    (l p : Option (TreeNode α)) (h : k < key) :
    BST.insert_recursive (.mk k v none l p) key v0 =
      some (.mk k v (some (.mk key v0 none none none)) l p) := by
  unfold BST.insert_recursive
  rw [if_neg (by omega), if_neg (by omega)]

theorem insert_recursive_gt_some (key k : Int) (v v0 : α) (rn : TreeNode α)
    (l p : Option (TreeNode α)) (h : k < key) :
    BST.insert_recursive (.mk k v (some rn) l p) key v0 =
      (BST.insert_recursive rn key v0).map
        (fun r2 => .mk k v (some r2) l p) := by
  conv_lhs => unfold BST.insert_recursive
  rw [if_neg (by omega), if_neg (by omega)]

/-- Every key of a successfully inserted-into subtree is an old key or the
inserted key. -/
theorem insert_keyList_sub : ∀ (n : TreeNode α) (key : Int) (v0 : α)
    (n2 : TreeNode α), BST.insert_recursive n key v0 = some n2 →
    ∀ q, q ∈ BST.keyList (some n2) →
      q ∈ BST.keyList (some n) ∨ q = key
  | .mk k v r l p, key, v0, n2 => by
    intro h q hq
    rcases lt_trichotomy key k with h1 | h1 | h1
    · cases l with
      | none =>
        rw [insert_recursive_lt_none key k v v0 r p h1] at h
        cases h
        simp only [keyList_some, keyList_none, List.nil_append,
          List.mem_append, List.mem_cons, List.not_mem_nil, or_false] at hq ⊢
        tauto
      | some ln =>
        rw [insert_recursive_lt_some key k v v0 ln r p h1] at h
        rcases Option.map_eq_some'.1 h with ⟨l2, hl2, rfl⟩
        rw [keyList_some] at hq ⊢
        rcases List.mem_append.1 hq with hq | hq
        · rcases insert_keyList_sub ln key v0 l2 hl2 q hq with hq | hq
          · exact Or.inl (List.mem_append_left _ hq)
          · exact Or.inr hq
        · exact Or.inl (List.mem_append_right _ hq)
    · rw [insert_recursive_hit key k v v0 r l p h1] at h
      cases h
    · cases r with
      | none =>
        rw [insert_recursive_gt_none key k v v0 l p h1] at h
        cases h
        simp only [keyList_some, keyList_none, List.nil_append,
          List.mem_append, List.mem_cons, List.not_mem_nil, or_false] at hq ⊢
        tauto
      | some rn =>
        rw [insert_recursive_gt_some key k v v0 rn l p h1] at h
        rcases Option.map_eq_some'.1 h with ⟨r2, hr2, rfl⟩
        rw [keyList_some] at hq ⊢
        rcases List.mem_append.1 hq with hq | hq
        · exact Or.inl (List.mem_append_left _ hq)
        · rcases List.mem_cons.1 hq with hq | hq
          · exact Or.inl (by simp [hq])
          · rcases insert_keyList_sub rn key v0 r2 hr2 q hq with hq | hq
            · exact Or.inl (List.mem_append_right _ (List.mem_cons_of_mem _ hq))
            · exact Or.inr hq

/-- _insert_recursive preserves the weak search-tree property. -/
theorem insert_weak : ∀ (n : TreeNode α) (key : Int) (v0 : α)
    (n2 : TreeNode α), weakTree (some n) = true →
    BST.insert_recursive n key v0 = some n2 → weakTree (some n2) = true
  | .mk k v r l p, key, v0, n2 => by
    intro hw h
    rw [weakTree_some] at hw
    simp only [Bool.and_eq_true, List.all_eq_true, decide_eq_true_eq] at hw
    obtain ⟨⟨hlk, hlw⟩, hrk, hrw⟩ := hw
    rcases lt_trichotomy key k with h1 | h1 | h1
    · cases l with
      | none =>
        rw [insert_recursive_lt_none key k v v0 r p h1] at h
        cases h
        rw [weakTree_some]
        simp only [Bool.and_eq_true, List.all_eq_true, decide_eq_true_eq]
        refine ⟨⟨?_, rfl⟩, hrk, hrw⟩
        intro q hq
        simp only [keyList_some, keyList_none, List.nil_append,
          List.mem_cons, List.not_mem_nil, or_false] at hq
        omega
      | some ln =>
        rw [insert_recursive_lt_some key k v v0 ln r p h1] at h
        rcases Option.map_eq_some'.1 h with ⟨l2, hl2, rfl⟩
        rw [weakTree_some]
        simp only [Bool.and_eq_true, List.all_eq_true, decide_eq_true_eq]
        refine ⟨⟨?_, insert_weak ln key v0 l2 hlw hl2⟩, hrk, hrw⟩
        intro q hq
        rcases insert_keyList_sub ln key v0 l2 hl2 q hq with hq | hq
        · exact hlk q hq
        · omega
    · rw [insert_recursive_hit key k v v0 r l p h1] at h
      cases h
    · cases r with
      | none =>
        rw [insert_recursive_gt_none key k v v0 l p h1] at h
        cases h
        rw [weakTree_some]
        simp only [Bool.and_eq_true, List.all_eq_true, decide_eq_true_eq]
        refine ⟨⟨hlk, hlw⟩, ?_, rfl⟩
        intro q hq
        simp only [keyList_some, keyList_none, List.nil_append,
          List.mem_cons, List.not_mem_nil, or_false] at hq
        omega
      | some rn =>
        rw [insert_recursive_gt_some key k v v0 rn l p h1] at h
        rcases Option.map_eq_some'.1 h with ⟨r2, hr2, rfl⟩
        rw [weakTree_some]
        simp only [Bool.and_eq_true, List.all_eq_true, decide_eq_true_eq]
        refine ⟨⟨hlk, hlw⟩, ?_, insert_weak rn key v0 r2 hrw hr2⟩
        intro q hq
        rcases insert_keyList_sub rn key v0 r2 hr2 q hq with hq | hq
        · exact hrk q hq
        · omega

/-- _insert_recursive preserves the strict BST property. -/
theorem insert_strict : ∀ (n : TreeNode α) (key : Int) (v0 : α)
    (n2 : TreeNode α), strictTree (some n) = true →
    BST.insert_recursive n key v0 = some n2 → strictTree (some n2) = true
  | .mk k v r l p, key, v0, n2 => by
    intro hw h
    rw [strictTree_some] at hw
    simp only [Bool.and_eq_true, List.all_eq_true, decide_eq_true_eq] at hw
    obtain ⟨⟨hlk, hlw⟩, hrk, hrw⟩ := hw
    rcases lt_trichotomy key k with h1 | h1 | h1
    · cases l with
      | none =>
        rw [insert_recursive_lt_none key k v v0 r p h1] at h
        cases h
        rw [strictTree_some]
        simp only [Bool.and_eq_true, List.all_eq_true, decide_eq_true_eq]
        refine ⟨⟨?_, rfl⟩, hrk, hrw⟩
        intro q hq
        simp only [keyList_some, keyList_none, List.nil_append,
          List.mem_cons, List.not_mem_nil, or_false] at hq
        omega
      | some ln =>
        rw [insert_recursive_lt_some key k v v0 ln r p h1] at h
        rcases Option.map_eq_some'.1 h with ⟨l2, hl2, rfl⟩
        rw [strictTree_some]
        simp only [Bool.and_eq_true, List.all_eq_true, decide_eq_true_eq]
        refine ⟨⟨?_, insert_strict ln key v0 l2 hlw hl2⟩, hrk, hrw⟩
        intro q hq
        rcases insert_keyList_sub ln key v0 l2 hl2 q hq with hq | hq
        · exact hlk q hq
        · omega
    · rw [insert_recursive_hit key k v v0 r l p h1] at h
      cases h
    · cases r with
      | none =>
        rw [insert_recursive_gt_none key k v v0 l p h1] at h
        cases h
        rw [strictTree_some]
        simp only [Bool.and_eq_true, List.all_eq_true, decide_eq_true_eq]
        refine ⟨⟨hlk, hlw⟩, ?_, rfl⟩
        intro q hq
        simp only [keyList_some, keyList_none, List.nil_append,
          List.mem_cons, List.not_mem_nil, or_false] at hq
        omega
      | some rn =>
        rw [insert_recursive_gt_some key k v v0 rn l p h1] at h
        rcases Option.map_eq_some'.1 h with ⟨r2, hr2, rfl⟩
        rw [strictTree_some]
        simp only [Bool.and_eq_true, List.all_eq_true, decide_eq_true_eq]
        refine ⟨⟨hlk, hlw⟩, ?_, insert_strict rn key v0 r2 hrw hr2⟩
        intro q hq
        rcases insert_keyList_sub rn key v0 r2 hr2 q hq with hq | hq
        · exact hrk q hq
        · omega

/-- Under the weak search-tree property, inserting a key that is already
present always hits the equal-key test on the search path, so
_insert_recursive raises KeyError (returns none). -/
theorem weak_insert_present : ∀ (n : TreeNode α) (key : Int) (v0 : α),
    weakTree (some n) = true → key ∈ BST.keyList (some n) →
    BST.insert_recursive n key v0 = none
  | .mk k v r l p, key, v0 => by
    intro hw hmem
    rw [weakTree_some] at hw
    simp only [Bool.and_eq_true, List.all_eq_true, decide_eq_true_eq] at hw
    obtain ⟨⟨hlk, hlw⟩, hrk, hrw⟩ := hw
    rcases lt_trichotomy key k with h1 | h1 | h1
    · have hl : key ∈ BST.keyList l := by
        simp only [keyList_some, List.mem_append, List.mem_cons] at hmem
        rcases hmem with hm | hm | hm
        · exact hm
        · omega
        · exact absurd (hrk key hm) (by omega)
      cases l with
      | none => simp at hl
      | some ln =>
        rw [insert_recursive_lt_some key k v v0 ln r p h1,
          weak_insert_present ln key v0 hlw hl]
        rfl
    · exact insert_recursive_hit key k v v0 r l p h1
    · have hr : key ∈ BST.keyList r := by
        simp only [keyList_some, List.mem_append, List.mem_cons] at hmem
        rcases hmem with hm | hm | hm
        · exact absurd (hlk key hm) (by omega)
        · omega
        · exact hm
      cases r with
      | none => simp at hr
      | some rn =>
        rw [insert_recursive_gt_some key k v v0 rn l p h1,
          weak_insert_present rn key v0 hrw hr]
        rfl

/-- The strict BST property forces a strictly ascending inorder key
sequence. -/
theorem strict_sorted : ∀ (n : TreeNode α), strictTree (some n) = true →
    List.Pairwise (· < ·) (BST.keyList (some n))
  | .mk k v r l p => by
    intro hs
    rw [strictTree_some] at hs
    simp only [Bool.and_eq_true, List.all_eq_true, decide_eq_true_eq] at hs
    obtain ⟨⟨hlk, hlw⟩, hrk, hrw⟩ := hs
    rw [keyList_some]
    rw [List.pairwise_append]
    refine ⟨?_, ?_, ?_⟩
    · cases l with
      | none => simp
      | some ln => exact strict_sorted ln hlw
    · rw [List.pairwise_cons]
      refine ⟨hrk, ?_⟩
      cases r with
      | none => simp
      | some rn => exact strict_sorted rn hrw
    · intro a ha b hb
      have hak := hlk a ha
      rcases List.mem_cons.1 hb with hb | hb
      · omega
      · have := hrk b hb
        omega

/-! ## Parent-field lemmas -/

/-- _insert_recursive keeps every parent field None: existing nodes are
rebuilt with their old parent field and TreeNode(key, value) defaults
parent to None. -/
theorem insert_parents : ∀ (n : TreeNode α) (key : Int) (v0 : α)
    (n2 : TreeNode α), parentsTree (some n) = true →
    BST.insert_recursive n key v0 = some n2 → parentsTree (some n2) = true
  | .mk k v r l p, key, v0, n2 => by
    intro hw h
    rw [parentsTree_some] at hw
    simp only [Bool.and_eq_true] at hw
    obtain ⟨⟨hp, hl⟩, hr⟩ := hw
    rcases lt_trichotomy key k with h1 | h1 | h1
    · cases l with
      | none =>
        rw [insert_recursive_lt_none key k v v0 r p h1] at h
        cases h
        rw [parentsTree_some]
        simp only [Bool.and_eq_true]
        exact ⟨⟨hp, rfl⟩, hr⟩
      | some ln =>
        rw [insert_recursive_lt_some key k v v0 ln r p h1] at h
        rcases Option.map_eq_some'.1 h with ⟨l2, hl2, rfl⟩
        rw [parentsTree_some]
        simp [hp, hr, insert_parents ln key v0 l2 hl hl2]
    · rw [insert_recursive_hit key k v v0 r l p h1] at h
      cases h
    · cases r with
      | none =>
        rw [insert_recursive_gt_none key k v v0 l p h1] at h
        cases h
        rw [parentsTree_some]
        simp only [Bool.and_eq_true]
        exact ⟨⟨hp, hl⟩, rfl⟩
      | some rn =>
        rw [insert_recursive_gt_some key k v v0 rn l p h1] at h
        rcases Option.map_eq_some'.1 h with ⟨r2, hr2, rfl⟩
        rw [parentsTree_some]
        simp [hp, hl, insert_parents rn key v0 r2 hr hr2]

/-- remove_recursive keeps every parent field None (it never reassigns a
parent: nodes are rebuilt with their old parent field or promoted
unchanged). -/
theorem remove_parents : ∀ (n : TreeNode α) (key : Int),
    parentsTree (some n) = true →
    parentsTree (BST.remove_recursive key (some n)).1 = true
  | .mk k v r l p, key => by
    intro hw
    rw [parentsTree_some] at hw
    simp only [Bool.and_eq_true] at hw
    obtain ⟨⟨hp, hl⟩, hr⟩ := hw
    rcases lt_trichotomy key k with h1 | h1 | h1
    · rw [remove_recursive_lt key k v r l p h1, parentsTree_some]
      cases l with
      | none => simp [hp, hr]
      | some ln => simp [hp, hr, remove_parents ln key hl]
    · subst h1
      cases l with
      | none => rw [remove_recursive_self_noleft]; exact hr
      | some ln =>
        cases r with
        | none => rw [remove_recursive_self_left]; exact hl
        | some rn =>
          rw [remove_recursive_self_two, parentsTree_some]
          simp [hp, hl, remove_parents rn key hr]
    · rw [remove_recursive_gt key k v r l p h1, parentsTree_some]
      cases r with
      | none => simp [hp, hl]
      | some rn => simp [hp, hl, remove_parents rn key hr]

/-- Option-level version of remove_parents. -/
theorem remove_parents_opt (t : Option (TreeNode α)) (key : Int)
    (hw : parentsTree t = true) :
    parentsTree (BST.remove_recursive key t).1 = true := by
  cases t with
  | none => rfl
  | some n => exact remove_parents n key hw

/-- In a subtree all of whose parent fields are None, every traversed node
has parent None. -/
theorem parents_mem : ∀ (n : TreeNode α), parentsTree (some n) = true →
    ∀ m ∈ BST.inorderAux (some n), m.parent = none
  | .mk k v r l p => by
    intro hw m hm
    rw [parentsTree_some] at hw
    simp only [Bool.and_eq_true] at hw
    obtain ⟨⟨hp, hl⟩, hr⟩ := hw
    rw [inorderAux_some] at hm
    simp only [List.mem_append, List.mem_singleton] at hm
    rcases hm with (hm | rfl) | hm
    · cases l with
      | none => simp at hm
      | some ln => exact parents_mem ln hl m hm
    · simpa [TreeNode.parent, Option.isNone_iff_eq_none] using hp
    · cases r with
      | none => simp at hm
      | some rn => exact parents_mem rn hr m hm

/-- A node whose parent field is None has depth 0. -/
theorem depth_zero_of_parent_none (m : TreeNode α) (h : m.parent = none) :
    m.depth = 0 := by
  cases m with
  | mk k v r l p =>
    simp only [TreeNode.parent] at h
    subst h
    rfl

/-! ## Success analysis of the public operations -/

/-- What a successful insert call did to the root. -/
theorem insert_success_root (t : BST α) (k : Int) (v : α) (t2 : BST α)
    (h : t.insert (.intKey k) v = (none, t2)) :
    (t.root = none ∧ t2.root = some (.mk k v none none none)) ∨
    (∃ rn n2, t.root = some rn ∧ BST.insert_recursive rn k v = some n2 ∧
      t2.root = some n2) := by
  cases hroot : t.root with
  | none =>
    have hins : t.insert (.intKey k) v =
        (none, { t with root := some (.mk k v none none none),
                        size := t.size + 1 }) := by
      simp [BST.insert, hroot]
    rw [hins] at h
    have h2 : _ = t2 := congrArg Prod.snd h
    exact Or.inl ⟨rfl, by rw [← h2]⟩
  | some rn =>
    cases hir : BST.insert_recursive rn k v with
    | none =>
      have hins : t.insert (.intKey k) v = (some .keyError, t) := by
        simp [BST.insert, hroot, hir]
      rw [hins] at h
      exact absurd (congrArg Prod.fst h) (by simp)
    | some n2 =>
      have hins : t.insert (.intKey k) v =
          (none, { t with root := some n2, size := t.size + 1 }) := by
        simp [BST.insert, hroot, hir]
      rw [hins] at h
      have h2 : _ = t2 := congrArg Prod.snd h
      exact Or.inr ⟨rn, n2, rfl, hir, by rw [← h2]⟩

/-- What a successful remove call did to the root. -/
theorem remove_success_root (t : BST α) (k : Int) (t2 : BST α)
    (h : t.remove (.intKey k) = (none, t2)) :
    t2.root = (BST.remove_recursive k t.root).1 := by
  by_cases hflag : (BST.remove_recursive k t.root).2 = true
  · have hrem : t.remove (.intKey k) =
        (none, { t with root := (BST.remove_recursive k t.root).1,
                        size := t.size - 1 }) := by
      simp [BST.remove, hflag]
    rw [hrem] at h
    have h2 : _ = t2 := congrArg Prod.snd h
    rw [← h2]
  · have hrem : t.remove (.intKey k) =
        (some .keyError,
         { t with root := (BST.remove_recursive k t.root).1 }) := by
      simp [BST.remove, hflag]
    rw [hrem] at h
    exact absurd (congrArg Prod.fst h) (by simp)

/-! ## Reachable-tree invariants -/

/-- Every reachable tree satisfies the weak search-tree property. -/
theorem reachable_weak (t : BST α) (h : Reachable t) :
    weakTree t.root = true := by
  induction h with
  | empty => rfl
  | insert t k v t2 _ heq ih =>
    rcases insert_success_root t k v t2 heq with ⟨_, h2⟩ | ⟨rn, n2, h1, hir, h2⟩
    · rw [h2]; rfl
    · rw [h1] at ih
      rw [h2]
      exact insert_weak rn k v n2 ih hir
  | remove t k t2 _ heq ih =>
    rw [remove_success_root t k t2 heq]
    exact remove_weak_opt t.root k ih

/-- Every node of a reachable tree has parent None. -/
theorem reachable_parents (t : BST α) (h : Reachable t) :
    parentsTree t.root = true := by
  induction h with
  | empty => rfl
  | insert t k v t2 _ heq ih =>
    rcases insert_success_root t k v t2 heq with ⟨_, h2⟩ | ⟨rn, n2, h1, hir, h2⟩
    · rw [h2]; rfl
    · rw [h1] at ih
      rw [h2]
      exact insert_parents rn k v n2 ih hir
  | remove t k t2 _ heq ih =>
    rw [remove_success_root t k t2 heq]
    exact remove_parents_opt t.root k ih

/-- Successfully running a sequence of operations preserves reachability. -/
theorem runOps_reachable : ∀ (ops : List (Op α)) (t : BST α),
    Reachable t → BST.runOk t ops = true → Reachable (BST.runOps t ops)
  | [], t => fun h _ => h
  | op :: ops, t => by
    intro h hok
    simp only [BST.runOk, Bool.and_eq_true, beq_iff_eq] at hok
    have h1 : t.applyOp op = (none, (t.applyOp op).2) := by
      rw [← hok.1]
    have h2 : Reachable ((t.applyOp op).2) := by
      cases op with
      | ins k v => exact Reachable.insert t k v _ h h1
      | del k => exact Reachable.remove t k _ h h1
    exact runOps_reachable ops _ h2 hok.2

/-! ## Behaviour of the public operations on failures -/

/-- find of an absent key raises KeyError. -/
theorem find_absent (t : BST α) (k : Int) (h : k ∉ BST.keyList t.root) :
    t.find (.intKey k) = .error .keyError := by
  cases hf : BST.find_recursive k t.root with
  | none => simp [BST.find, hf]
  | some m => exact absurd (find_recursive_present t.root k m hf) h

/-- remove_recursive finds nothing to remove when the key is absent. -/
theorem remove_absent_flag (t : Option (TreeNode α)) (k : Int)
    (h : k ∉ BST.keyList t) :
    (BST.remove_recursive k t).2 = false := by
  cases t with
  | none => rfl
  | some n =>
    cases hflag : (BST.remove_recursive k (some n)).2 with
    | false => rfl
    | true => exact absurd (removeNode_removed_present n k hflag) h

/-- remove of an absent key raises KeyError and leaves the tree equal to
what it was (the root is reassigned, but to the unchanged subtree). -/
theorem remove_absent (t : BST α) (k : Int) (h : k ∉ BST.keyList t.root) :
    t.remove (.intKey k) = (some .keyError, t) := by
  have hflag := remove_absent_flag t.root k h
  have hid := remove_recursive_not_removed t.root k hflag
  simp [BST.remove, hflag, hid]

/-- A failing insert raises KeyError and returns the tree untouched. -/
theorem insert_fail (t : BST α) (k : Int) (v : α) (e : Err) (t2 : BST α)
    (h : t.insert (.intKey k) v = (some e, t2)) :
    e = .keyError ∧ t2 = t := by
  cases hroot : t.root with
  | none =>
    have : t.insert (.intKey k) v =
        (none, { t with root := some (.mk k v none none none),
                        size := t.size + 1 }) := by
      simp [BST.insert, hroot]
    rw [this] at h
    exact absurd (congrArg Prod.fst h) (by simp)
  | some rn =>
    cases hir : BST.insert_recursive rn k v with
    | none =>
      have hins : t.insert (.intKey k) v = (some .keyError, t) := by
        simp [BST.insert, hroot, hir]
      rw [hins] at h
      have h1 : some Err.keyError = some e := congrArg Prod.fst h
      have h2 : t = t2 := congrArg Prod.snd h
      exact ⟨(Option.some.injEq _ _ ▸ h1).symm, h2.symm⟩
    | some n2 =>
      have hins : t.insert (.intKey k) v =
          (none, { t with root := some n2, size := t.size + 1 }) := by
        simp [BST.insert, hroot, hir]
      rw [hins] at h
      exact absurd (congrArg Prod.fst h) (by simp)

/-- A failing remove raises KeyError and returns the tree untouched. -/
theorem remove_fail (t : BST α) (k : Int) (e : Err) (t2 : BST α)
    (h : t.remove (.intKey k) = (some e, t2)) :
    e = .keyError ∧ t2 = t := by
  by_cases hflag : (BST.remove_recursive k t.root).2 = true
  · have hrem : t.remove (.intKey k) =
        (none, { t with root := (BST.remove_recursive k t.root).1,
                        size := t.size - 1 }) := by
      simp [BST.remove, hflag]
    rw [hrem] at h
    exact absurd (congrArg Prod.fst h) (by simp)
  · have hid := remove_recursive_not_removed t.root k (by simpa using hflag)
    have hrem : t.remove (.intKey k) = (some .keyError, t) := by
      simp [BST.remove, hflag, hid]
    rw [hrem] at h
    have h1 : some Err.keyError = some e := congrArg Prod.fst h
    have h2 : t = t2 := congrArg Prod.snd h
    exact ⟨(Option.some.injEq _ _ ▸ h1).symm, h2.symm⟩

/-- Inserting a key that is present in a weak search tree raises KeyError
and returns the tree untouched. -/
theorem insert_present (t : BST α) (k : Int) (v : α)
    (hw : weakTree t.root = true) (h : k ∈ BST.keyList t.root) :
    t.insert (.intKey k) v = (some .keyError, t) := by
  cases hroot : t.root with
  | none => rw [hroot] at h; simp at h
  | some rn =>
    rw [hroot] at h hw
    have hir := weak_insert_present rn k v hw h
    simp [BST.insert, hroot, hir]

/-- One public insert with an int key preserves the strict BST property of
the root (whether or not the insert succeeded). -/
theorem insert_pair_strict (t : BST α) (k : Int) (v : α)
    (hs : strictTree t.root = true) :
    strictTree ((t.insert (.intKey k) v).2).root = true := by
  cases hroot : t.root with
  | none =>
    have : t.insert (.intKey k) v =
        (none, { t with root := some (.mk k v none none none),
                        size := t.size + 1 }) := by
      simp [BST.insert, hroot]
    rw [this]
    rfl
  | some rn =>
    rw [hroot] at hs
    cases hir : BST.insert_recursive rn k v with
    | none =>
      have hins : t.insert (.intKey k) v = (some .keyError, t) := by
        simp [BST.insert, hroot, hir]
      rw [hins, hroot]
      exact hs
    | some n2 =>
      have hins : t.insert (.intKey k) v =
          (none, { t with root := some n2, size := t.size + 1 }) := by
        simp [BST.insert, hroot, hir]
      rw [hins]
      exact insert_strict rn k v n2 hs hir

/-- Folding public inserts over any list of key/value pairs preserves the
strict BST property. -/
theorem foldl_insert_strict : ∀ (ps : List (Int × α)) (t : BST α),
    strictTree t.root = true →
    strictTree ((ps.foldl (fun t p => (t.insert (.intKey p.1) p.2).2) t).root)
      = true
  | [], t => fun h => h
  | p :: ps, t => by
    intro h
    exact foldl_insert_strict ps _ (insert_pair_strict t p.1 p.2 h)

/-! ## The claims -/

/-- C1: the claim says that removing a key held by a node with two
children copies the in-order successor into the node AND removes the
successor node from the right subtree, leaving every remaining key exactly
once. The code copies the successor but then calls remove_recursive with
the ORIGINAL key (the closure variable), which is smaller than every key
of the right subtree, so nothing is removed there: after inserting
5,3,8,1,4,7,9 and removing 5 (root, two children), the successor key 7
occurs twice and the tree keeps all 7 nodes. -/
theorem claim1_successor_not_removed :
    (scenarioTree.remove (.intKey 5)).1 = none ∧
    Option.map TreeNode.key scenarioTree.root = some 5 ∧
    (scenarioTree.root.bind TreeNode.left).isSome = true ∧
    (scenarioTree.root.bind TreeNode.right).isSome = true ∧
    BST.keyList scenarioAfterRemove.root = [1, 3, 4, 7, 7, 8, 9] ∧
    (BST.keyList scenarioAfterRemove.root).count 7 = 2 ∧
    5 ∉ BST.keyList scenarioAfterRemove.root :=
  ⟨rfl, rfl, rfl, rfl, rfl, by decide, by decide⟩

/-- C2: the spec round-trip: insert 5,3,8,1,4,7,9 then remove 5. The size
accessor does drop from 7 to 6 and the root does hold the former minimum 7
of the right subtree, but the inorder key sequence is 1,3,4,7,7,8,9 - NOT
strictly ascending, because the successor node with key 7 was never
removed from the right subtree. -/
theorem claim2_round_trip_diverges :
    scenarioTree.size = 7 ∧
    (scenarioTree.remove (.intKey 5)).1 = none ∧
    scenarioAfterRemove.size = 6 ∧
    Option.map TreeNode.key scenarioAfterRemove.root = some 7 ∧
    BST.keyList scenarioAfterRemove.root = [1, 3, 4, 7, 7, 8, 9] ∧
    ¬ List.Pairwise (· < ·) (BST.keyList scenarioAfterRemove.root) :=
  ⟨rfl, rfl, rfl, rfl, rfl, by decide⟩

/-- C3: the claim says size equals the number of nodes reached by a
complete traversal, for every tree reachable by successful operations.
The tree reached by inserting 5,3,8,1,4,7,9 and removing 5 (all eight
calls succeed) refutes it: the size accessor says 6, but the traversal
still visits 7 nodes (remove decremented _size without unlinking the
successor node). -/
theorem claim3_size_differs_from_node_count :
    Reachable scenarioAfterRemove ∧
    scenarioAfterRemove.size = 6 ∧
    (BST.inorderAux scenarioAfterRemove.root).length = 7 :=
  ⟨Reachable.remove scenarioTree 5 scenarioAfterRemove
    (runOps_reachable scenarioOps BST.empty Reachable.empty rfl) rfl,
   rfl, rfl⟩

/-- C4: the claim says is_valid returns true on every reachable tree. The
is_valid property defines is_valid_recursive but never calls it and has no
return statement, so the Python property returns None on every tree -
never true (the spec itself flags this defect in section 9). -/
theorem claim4_is_valid_always_none {α : Type} (t : BST α) :
    t.is_valid = none ∧ t.is_valid ≠ some true :=
  ⟨rfl, by simp [BST.is_valid]⟩

/-- C5: inserting any finite sequence of pairwise-distinct integer keys
(with arbitrary values) into an empty tree yields a tree whose inorder
traversal lists the keys in strictly ascending order. (Insertion preserves
the strict BST bound invariant, which forces sorted inorder.) -/
theorem claim5_distinct_inserts_sorted_inorder {α : Type}
    (ps : List (Int × α))
    (_hdist : List.Pairwise (fun a b => a.1 ≠ b.1) ps) :
    List.Pairwise (· < ·) (BST.keyList (BST.insertAll ps).root) := by
  have hs : strictTree (BST.insertAll ps).root = true :=
    foldl_insert_strict ps BST.empty rfl
  cases hroot : (BST.insertAll ps).root with
  | none => simp
  | some n =>
    rw [hroot] at hs
    exact strict_sorted n hs

/-- Witness for C5 at a concrete input. -/
theorem claim5_witness :
    List.Pairwise (fun (a b : Int × Int) => a.1 ≠ b.1)
      [(5, 10), (3, 11), (8, 12), (1, 13)] ∧
    List.Pairwise (· < ·)
      (BST.keyList (BST.insertAll [(5, 10), (3, 11), (8, 12), (1, 13)]).root) :=
  ⟨by decide, claim5_distinct_inserts_sorted_inorder _ (by decide)⟩

/-- C6: every failing operation leaves the tree exactly as it was. A
non-int key raises ValueError (InvalidKey) from insert/find/remove before
any mutation. Any failing insert or remove raises KeyError and hands back
the tree unchanged. On a reachable tree, inserting a present key always
raises KeyError (DuplicateKey); find/remove of an absent key raise
KeyError (KeyNotFound) with the tree unchanged. -/
theorem claim6_failing_operations_atomic {α : Type} (t : BST α) (k : Int)
    (v : α) (hreach : Reachable t) :
    t.insert .badKey v = (some .valueError, t) ∧
    t.find .badKey = .error .valueError ∧
    t.remove .badKey = (some .valueError, t) ∧
    (∀ e t2, t.insert (.intKey k) v = (some e, t2) → e = .keyError ∧ t2 = t) ∧
    (∀ e t2, t.remove (.intKey k) = (some e, t2) → e = .keyError ∧ t2 = t) ∧
    (k ∈ BST.keyList t.root → t.insert (.intKey k) v = (some .keyError, t)) ∧
    (k ∉ BST.keyList t.root →
      t.find (.intKey k) = .error .keyError ∧
      t.remove (.intKey k) = (some .keyError, t)) := by
  refine ⟨rfl, rfl, rfl, ?_, ?_, ?_, ?_⟩
  · exact fun e t2 h => insert_fail t k v e t2 h
  · exact fun e t2 h => remove_fail t k e t2 h
  · exact fun h => insert_present t k v (reachable_weak t hreach) h
  · exact fun h => ⟨find_absent t k h, remove_absent t k h⟩

/-- Witness for C6 at the empty tree with key 0. -/
theorem claim6_witness :
    (BST.empty : BST Int).insert .badKey 0 = (some .valueError, BST.empty) ∧
    (BST.empty : BST Int).find (.intKey 0) = .error .keyError ∧
    (BST.empty : BST Int).remove (.intKey 0) = (some .keyError, BST.empty) :=
  ⟨(claim6_failing_operations_atomic BST.empty 0 0 Reachable.empty).1,
   ((claim6_failing_operations_atomic BST.empty 0 0
      Reachable.empty).2.2.2.2.2.2 (by decide)).1,
   ((claim6_failing_operations_atomic BST.empty 0 0
      Reachable.empty).2.2.2.2.2.2 (by decide)).2⟩

/-- C7: iterating the tree directly (__iter__) yields exactly the
preorder traversal from the root, and both are empty on the empty tree. -/
theorem claim7_default_iteration_is_preorder {α : Type} (t : BST α) :
    t.iter = t.preorder none ∧ (t.root = none → t.iter = []) := by
  obtain ⟨root, s, c⟩ := t
  constructor
  · cases root <;> rfl
  · intro h
    cases h
    rfl

/-- Witness for C7 at the empty tree. -/
theorem claim7_witness :
    (BST.empty : BST Int).iter = (BST.empty : BST Int).preorder none ∧
    (BST.empty : BST Int).iter = [] :=
  ⟨(claim7_default_iteration_is_preorder BST.empty).1,
   (claim7_default_iteration_is_preorder BST.empty).2 rfl⟩

/-- C8: on the empty tree inorder/preorder/postorder yield the empty
sequence and return_min_key returns None rather than failing; on a
non-empty tree return_min_key is the node reached from the root by
following left children (which has no left child and is a node of the
tree). -/
theorem claim8_empty_safe_and_min_leftmost {α : Type} (t : BST α) :
    (t.root = none →
      t.inorder none = [] ∧ t.preorder none = [] ∧ t.postorder none = [] ∧
      t.return_min_key = none) ∧
    (∀ n, t.root = some n →
      t.return_min_key = some (leftmost n) ∧
      (leftmost n).left = none ∧
      leftmost n ∈ BST.inorderAux t.root) := by
  obtain ⟨root, s, c⟩ := t
  constructor
  · intro h
    cases h
    exact ⟨rfl, rfl, rfl, rfl⟩
  · intro n h
    cases h
    exact ⟨rfl, leftmost_left_none n, leftmost_mem n⟩

/-- Witness for C8 at the empty tree and a one-node tree. -/
theorem claim8_witness :
    (BST.empty : BST Int).inorder none = [] ∧
    (BST.empty : BST Int).preorder none = [] ∧
    (BST.empty : BST Int).postorder none = [] ∧
    (BST.empty : BST Int).return_min_key = none ∧
    oneNode.return_min_key = some (leftmost (TreeNode.mk 2 5 none none none)) :=
  ⟨((claim8_empty_safe_and_min_leftmost BST.empty).1 rfl).1,
   ((claim8_empty_safe_and_min_leftmost BST.empty).1 rfl).2.1,
   ((claim8_empty_safe_and_min_leftmost BST.empty).1 rfl).2.2.1,
   ((claim8_empty_safe_and_min_leftmost BST.empty).1 rfl).2.2.2,
   ((claim8_empty_safe_and_min_leftmost oneNode).2
      (TreeNode.mk 2 5 none none none) rfl).1⟩

/-- C9: insert and remove never assign a parent field and TreeNode(key,
value) defaults parent to None, so in every reachable tree every node has
parent None and depth 0 - in particular every node returned by find. -/
theorem claim9_parent_absent_depth_zero {α : Type} (t : BST α)
    (hreach : Reachable t) :
    (∀ m, m ∈ BST.inorderAux t.root → m.parent = none ∧ m.depth = 0) ∧
    (∀ k n, t.find (.intKey k) = .ok n → n.parent = none ∧ n.depth = 0) := by
  have hp := reachable_parents t hreach
  constructor
  · intro m hm
    cases hroot : t.root with
    | none => rw [hroot] at hm; simp at hm
    | some rt =>
      rw [hroot] at hm hp
      have hnone := parents_mem rt hp m hm
      exact ⟨hnone, depth_zero_of_parent_none m hnone⟩
  · intro k n hfind
    cases hf : BST.find_recursive k t.root with
    | none => simp [BST.find, hf] at hfind
    | some m =>
      have hmn : m = n := by
        simp only [BST.find, hf] at hfind
        exact Except.ok.injEq .. ▸ hfind
      subst hmn
      cases hroot : t.root with
      | none => rw [hroot] at hf; simp at hf
      | some rt =>
        rw [hroot] at hf hp
        have hmem := (find_recursive_spec rt k m hf).2
        have hnone := parents_mem rt hp m hmem
        exact ⟨hnone, depth_zero_of_parent_none m hnone⟩

/-- Witness for C9 at the one-node reachable tree. -/
theorem claim9_witness :
    TreeNode.parent (TreeNode.mk 2 (5 : Int) none none none) = none ∧
    TreeNode.depth (TreeNode.mk 2 (5 : Int) none none none) = 0 :=
  (claim9_parent_absent_depth_zero oneNode
    (Reachable.insert BST.empty 2 5 oneNode Reachable.empty rfl)).2
    2 (TreeNode.mk 2 5 none none none) rfl

/-- C10: __getitem__ returns the value of the node found by find when the
key is present, and raises exactly the error find raises otherwise:
ValueError for a non-int key, KeyError for an absent key. (It mutates
nothing: it is a pure function of the tree.) -/
theorem claim10_getitem_delegates_to_find {α : Type} (t : BST α) (k : Int) :
    (∀ n, t.find (.intKey k) = .ok n → t.getitem (.intKey k) = .ok n.value) ∧
    (∀ e, t.find (.intKey k) = .error e → t.getitem (.intKey k) = .error e) ∧
    t.getitem .badKey = .error .valueError ∧
    (k ∉ BST.keyList t.root → t.getitem (.intKey k) = .error .keyError) := by
  refine ⟨?_, ?_, rfl, ?_⟩
  · intro n h
    simp [BST.getitem, h]
  · intro e h
    simp [BST.getitem, h]
  · intro h
    simp [BST.getitem, find_absent t k h]

/-- Witness for C10 on a one-node tree and the empty tree. -/
theorem claim10_witness :
    oneNode.getitem (.intKey 2) = .ok 5 ∧
    (BST.empty : BST Int).getitem (.intKey 7) = .error .keyError :=
  ⟨(claim10_getitem_delegates_to_find oneNode 2).1
      (TreeNode.mk 2 5 none none none) rfl,
   (claim10_getitem_delegates_to_find BST.empty 7).2.2.2 (by decide)⟩
